import Mathlib

/-!
Verification of the subcommand derive of `clap_derive/src/derives/subcommand.rs`.

The source generates, per enum, four operations: a membership oracle
(`gen_has_subcommand`), a match-result decoder (`gen_from_arg_matches`), an
in-place updater (`gen_update_from_arg_matches`) and a schema builder
(`gen_augment`).  Following the spec's design note, the generated code is
embedded here as ordinary recursive functions over a runtime model of the
variant list; each function mirrors the token stream the generator emits for
the corresponding kind of variant.

Field-level operations (`args::gen_constructor`, `args::gen_updater`,
`args::gen_augment`) live in `args.rs`, which is not part of the sources under
verification; they are modelled from the spec's collaborator contracts and
are marked as such.
-/

namespace ClapSub

/-- Payload shape of a non-nested variant: a unit variant or named fields
(struct-like payload handled by the field-level collaborator). -/
inductive Shape : Type where
  | unit : Shape
  | named : List String → Shape
deriving DecidableEq, Repr

mutual
/-- One enum variant as classified by the derive: `command` is the default
kind (an ordinary subcommand with a cased name), `subcmd` is a
`Kind::Subcommand` variant whose single unnamed field is a nested subcommand
union, `flatten` splices a nested union into the current level, `extSub` is
the `external_subcommand` catch-all, and `skip` is a variant marked skip
(which `gen_augment` drops but the other three generated operations keep). -/
inductive Variant : Type where
  | command : String → Shape → Variant
  | subcmd : String → Variants → Variant
  | flatten : Variants → Variant
  | extSub : Variant
  | skip : String → Shape → Variant

/-- A declaration-ordered variant list: one subcommand enum. -/
inductive Variants : Type where
  | nil : Variants
  | cons : Variant → Variants → Variants
end

/-- Model of `clap::ArgMatches` as consumed by the generated code: an
optional chosen subcommand `(name, nested matches)`, the leftover tokens
stored under the empty-string id used by `external_subcommand`, and named
argument values for the field-level collaborator. -/
inductive ArgMatches : Type where
  | mk : Option (String × ArgMatches) → List String → List (String × String) → ArgMatches

/-- The chosen subcommand of a match result (`ArgMatches::subcommand_name` /
`remove_subcommand`). -/
def ArgMatches.sub : ArgMatches → Option (String × ArgMatches)
  | .mk s _ _ => s

/-- The leftover tokens stored under the empty-string id. -/
def ArgMatches.leftover : ArgMatches → List String
  | .mk _ l _ => l

/-- The named argument values of a match result. -/
def ArgMatches.fields : ArgMatches → List (String × String)
  | .mk _ _ f => f

/-- A tagged-union value: `tagged i p` is the enum constructor at
declaration index `i` applied to payload `p`; payloads are the unit value, a
record of named fields, a nested union value (again a `tagged`), or the
token list captured by the catch-all. -/
inductive Value : Type where
  | unitV : Value
  | record : List (String × String) → Value
  | tagged : Nat → Value → Value
  | tokens : List String → Value
deriving DecidableEq, Repr

/-- Runtime errors of the generated decoder/updater. -/
inductive CError : Type where
  | missingSubcommand : CError
  | unrecognizedSubcommand : String → CError
  | fieldError : String → CError
deriving DecidableEq, Repr

/-- Generation-time fatal errors (the `abort!` calls of the derive). -/
inductive GenError : Type where
  | duplicateCatchAll : Nat → GenError
deriving DecidableEq, Repr

/-- True when some variant is the `external_subcommand` catch-all (the
`ext_subcmd` flag of `gen_has_subcommand`). -/
def containsExt : Variants → Bool
  | .nil => false
  | .cons .extSub _ => true
  | .cons _ t => containsExt t

/-- The cased name of a name-bearing variant: every kind except flatten and
the catch-all (skipped variants keep their cased name, as the source filters
`Kind::Skip` only in `gen_augment`). -/
def namedName : Variant → Option String
  | .command n _ => some n
  | .subcmd n _ => some n
  | .skip n _ => some n
  | _ => none

/-- First pass of the generated `has_subcommand`: compare the chosen name
with the cased name of every non-flatten, non-catch-all variant, in
declaration order. -/
def hasPlains : Variants → String → Bool
  | .nil, _ => false
  | .cons v t, name =>
    match namedName v with
    | some n => n == name || hasPlains t name
    | none => hasPlains t name

/-- Second pass of the generated `has_subcommand`: consult every flattened
variant's own membership test, in declaration order.  The nested test
inlines the body of `has`; `hasFlattens_cons_flatten` restates it through
`has`. -/
def hasFlattens : Variants → String → Bool
  | .nil, _ => false
  | .cons (.flatten u) t, name =>
    (if containsExt u then true else hasPlains u name || hasFlattens u name)
      || hasFlattens t name
  | .cons _ t, name => hasFlattens t name

/-- The membership oracle generated by `gen_has_subcommand`: when an
`external_subcommand` variant exists the oracle is constantly true;
otherwise the cased names are compared first and then every flattened
variant's oracle is consulted. -/
def has (vs : Variants) (name : String) : Bool :=
  if containsExt vs then true else hasPlains vs name || hasFlattens vs name

/-- Look up a named argument value. -/
def lookupField (k : String) (fields : List (String × String)) : Option String :=
  (fields.find? (fun p => p.1 == k)).map (fun p => p.2)

/-- Modelled from the spec: the field-level construct collaborator
(`args::gen_constructor`, not under the verified sources) builds each named
field's value from the nested match result and fails on a missing field. -/
def collectFields : List String → List (String × String) → Except CError (List (String × String))
  | [], _ => .ok []
  | f :: rest, avail =>
    match lookupField f avail with
    | some v => Except.map (fun l => (f, v) :: l) (collectFields rest avail)
    | none => .error (.fieldError f)

/-- Build the payload of a matched plain arm from the nested matches: a unit
variant has no payload; named fields go through the field-level construct
collaborator. -/
def constructShape (i : Nat) (s : Shape) (sub : ArgMatches) : Except CError Value :=
  match s with
  | .unit => .ok (.tagged i .unitV)
  | .named fs => Except.map (Value.tagged i) (Except.map Value.record (collectFields fs sub.fields))

/-- Index of the first `external_subcommand` variant, counting from `i`. -/
def findExt : Variants → Nat → Option Nat
  | .nil, _ => none
  | .cons .extSub _, i => some i
  | .cons _ t, i => findExt t (i + 1)

/-- The generated wildcard branch of `from_arg_matches_mut`: with a
catch-all, collect the chosen name followed by every leftover token of the
nested matches, in order; otherwise report an unrecognized subcommand. -/
def wildcard (vs : Variants) (name : String) (sub : ArgMatches) : Except CError Value :=
  match findExt vs 0 with
  | some k => .ok (.tagged k (.tokens (name :: sub.leftover)))
  | none => .error (.unrecognizedSubcommand name)

mutual
/-- The flatten branches of the generated `from_arg_matches_mut`, scanned in
declaration order with the original variant index threaded through: the
first flattened variant whose membership test recognizes the chosen name
decodes the nested union at the same match level and wraps it in that
variant's constructor.  The nested decoding inlines the body of `decode`;
`decodeFlat_cons_flatten` restates it through `decode`. -/
def decodeFlat : Variants → Nat → String → ArgMatches → Option (Except CError Value)
  | .nil, _, _, _ => none
  | .cons (.flatten u) t, i, name, m =>
    if has u name then
      some (Except.map (Value.tagged i)
        (match m.sub with
         | none => .error .missingSubcommand
         | some (name2, sub2) =>
           match decodeFlat u 0 name2 m with
           | some r => r
           | none =>
             if sub2.leftover.isEmpty then
               match decodeArm u 0 name2 sub2 with
               | some r => r
               | none => wildcard u name2 sub2
             else wildcard u name2 sub2))
    else decodeFlat t (i + 1) name m
  | .cons _ t, i, name, m => decodeFlat t (i + 1) name m

/-- The plain arms of the generated `from_arg_matches_mut`, scanned in
declaration order after `remove_subcommand`: an arm fires when the chosen
name equals the variant's cased name and the nested matches carry no entry
under the empty-string id (the `!contains_id("")` conjunct is hoisted into
the `leftover.isEmpty` branch of `decode`, as it does not depend on the
variant).  A `subcmd` arm decodes its nested union from the nested matches
(inlining the body of `decode`; see `decodeArm_cons_subcmd`). -/
def decodeArm : Variants → Nat → String → ArgMatches → Option (Except CError Value)
  | .nil, _, _, _ => none
  | .cons (.command n s) t, i, name, sub =>
    if n == name then some (constructShape i s sub) else decodeArm t (i + 1) name sub
  | .cons (.skip n s) t, i, name, sub =>
    if n == name then some (constructShape i s sub) else decodeArm t (i + 1) name sub
  | .cons (.subcmd n u) t, i, name, sub =>
    if n == name then
      some (Except.map (Value.tagged i)
        (match sub.sub with
         | none => .error .missingSubcommand
         | some (name2, sub2) =>
           match decodeFlat u 0 name2 sub with
           | some r => r
           | none =>
             if sub2.leftover.isEmpty then
               match decodeArm u 0 name2 sub2 with
               | some r => r
               | none => wildcard u name2 sub2
             else wildcard u name2 sub2))
    else decodeArm t (i + 1) name sub
  | .cons (.flatten _) t, i, name, sub => decodeArm t (i + 1) name sub
  | .cons .extSub t, i, name, sub => decodeArm t (i + 1) name sub
end

/-- The generated `from_arg_matches_mut`: try the flatten branches first on
the same match level; then, when a subcommand was chosen, try the plain arms
on the removed nested matches; finally the wildcard (catch-all or
unrecognized-subcommand error).  No chosen subcommand yields the
missing-subcommand error. -/
def decode (vs : Variants) (m : ArgMatches) : Except CError Value :=
  match m.sub with
  | none => .error .missingSubcommand
  | some (name2, sub2) =>
    match decodeFlat vs 0 name2 m with
    | some r => r
    | none =>
      if sub2.leftover.isEmpty then
        match decodeArm vs 0 name2 sub2 with
        | some r => r
        | none => wildcard vs name2 sub2
      else wildcard vs name2 sub2

instance : DecidableEq (Except CError Value) := fun
  | .ok a, .ok b => decidable_of_iff (a = b) (by simp)
  | .error a, .error b => decidable_of_iff (a = b) (by simp)
  | .ok _, .error _ => isFalse (by simp)
  | .error _, .ok _ => isFalse (by simp)

/-- Modelled from the spec: the field-level update collaborator
(`args::gen_updater`, not under the verified sources) merges the nested
match result into an existing named-fields payload per field, overwriting
the fields present in the matches and leaving untouched fields unchanged. -/
def mergeFields (old : List (String × String)) (sub : ArgMatches) : List (String × String) :=
  old.map (fun p =>
    match lookupField p.1 sub.fields with
    | some v => (p.1, v)
    | none => p)

/-- The field-level merge applied to a named-fields payload value. -/
def mergeValue (p : Value) (sub : ArgMatches) : Value :=
  match p with
  | .record old => .record (mergeFields old sub)
  | other => other

/-- Run the updater of a matched plain arm of `command`/`skip` kind: a unit
arm is `{}` (no-op); a named-fields arm merges per field. -/
def updateShape (i : Nat) (s : Shape) (p : Value) (sub : ArgMatches) : Value × Option CError :=
  match s with
  | .unit => (.tagged i p, none)
  | .named _ => (.tagged i (mergeValue p sub), none)

mutual
/-- The plain match arms of the generated `update_from_arg_matches_mut`,
scanned in declaration order: the arm for variant `i` fires when the
existing value's active constructor is `i` and the chosen name equals the
variant's cased name; it then removes the subcommand and runs the arm's
updater on the nested matches (a `subcmd` arm recurses in place, inlining
the body of `update`; see `updateArm_cons_subcmd`). -/
def updateArm : Variants → Nat → Value → String → ArgMatches → Option (Value × Option CError)
  | .nil, _, _, _, _ => none
  | .cons (.command n s) t, i, val, name, sub =>
    match val with
    | .tagged vi p =>
      if vi == i && n == name then some (updateShape i s p sub)
      else updateArm t (i + 1) (.tagged vi p) name sub
    | v => updateArm t (i + 1) v name sub
  | .cons (.skip n s) t, i, val, name, sub =>
    match val with
    | .tagged vi p =>
      if vi == i && n == name then some (updateShape i s p sub)
      else updateArm t (i + 1) (.tagged vi p) name sub
    | v => updateArm t (i + 1) v name sub
  | .cons (.subcmd n u) t, i, val, name, sub =>
    match val with
    | .tagged vi p =>
      if vi == i && n == name then
        some ((fun r => (Value.tagged i r.1, r.2))
          (match sub.sub with
           | none => (p, none)
           | some (name2, sub2) =>
             match updateArm u 0 p name2 sub2 with
             | some r2 => r2
             | none =>
               match updateFlat u 0 p name2 sub with
               | some r2 => r2
               | none =>
                 match decode u sub with
                 | .ok v => (v, none)
                 | .error e => (p, some e)))
      else updateArm t (i + 1) (.tagged vi p) name sub
    | v => updateArm t (i + 1) v name sub
  | .cons (.flatten _) t, i, val, name, sub => updateArm t (i + 1) val name sub
  | .cons .extSub t, i, val, name, sub => updateArm t (i + 1) val name sub

/-- The flatten checks inside the fallback match arm of the generated
`update_from_arg_matches_mut`, scanned in declaration order: when a
flattened variant's membership test recognizes the chosen name and the
existing value's active constructor is that flatten variant, the update is
delegated in place into the nested value, on the same match level (inlining
the body of `update`; see `updateFlat_cons_flatten`). -/
def updateFlat : Variants → Nat → Value → String → ArgMatches → Option (Value × Option CError)
  | .nil, _, _, _, _ => none
  | .cons (.flatten u) t, i, val, name, m =>
    if has u name then
      match val with
      | .tagged vi c =>
        if vi == i then
          some ((fun r => (Value.tagged i r.1, r.2))
            (match m.sub with
             | none => (c, none)
             | some (name2, sub2) =>
               match updateArm u 0 c name2 sub2 with
               | some r2 => r2
               | none =>
                 match updateFlat u 0 c name2 m with
                 | some r2 => r2
                 | none =>
                   match decode u m with
                   | .ok v => (v, none)
                   | .error e => (c, some e)))
        else updateFlat t (i + 1) (.tagged vi c) name m
      | v => updateFlat t (i + 1) v name m
    else updateFlat t (i + 1) val name m
  | .cons _ t, i, val, name, m => updateFlat t (i + 1) val name m
end

/-- The generated `update_from_arg_matches_mut`, with the in-place mutation
made explicit: the result pairs the value held by `self` after the call
with the optional error returned.  No chosen subcommand is a no-op success;
otherwise the plain arms are tried on the existing value, then the flatten
delegation checks, and finally the value is replaced wholesale by a fresh
`decode` (on a decode error the existing value is kept and the error
returned). -/
def update (vs : Variants) (val : Value) (m : ArgMatches) : Value × Option CError :=
  match m.sub with
  | none => (val, none)
  | some (name2, sub2) =>
    match updateArm vs 0 val name2 sub2 with
    | some r2 => r2
    | none =>
      match updateFlat vs 0 val name2 m with
      | some r2 => r2
      | none =>
        match decode vs m with
        | .ok v => (v, none)
        | .error e => (val, some e)

/-- A command-schema node: name, argument specs, child subcommand nodes and
the builder flags the generated `augment_subcommands` can set. -/
structure Cmd : Type where
  name : String
  args : List String
  children : List Cmd
  subRequired : Bool
  argRequiredElseHelp : Bool
  acceptsExternal : Bool

/-- `clap::Command::new`: a fresh schema node with no arguments, no children
and all flags unset. -/
def Cmd.new (name : String) : Cmd :=
  ⟨name, [], [], false, false, false⟩

mutual
/-- The generated `augment_subcommands` (`gen_augment`): fold the variants
in declaration order onto the node under construction.  The mode flag is
the generator's `override_required` (update mode); it only suppresses
deprecation markers, which carry no schema structure, so the built tree is
the same in both modes. -/
def augment : Variants → Bool → Cmd → Cmd
  | .nil, _, app => app
  | .cons v t, mode, app => augment t mode (augmentVariant v mode app)

/-- One variant's contribution to `gen_augment`: a skipped variant adds
nothing; the catch-all only installs the external value parser (modelled as
the `acceptsExternal` flag); a flattened variant splices the nested union's
children into the current node; a `Kind::Subcommand` variant adds a child
built from the nested union with `subcommand_required` and
`arg_required_else_help` set; a default-kind variant adds a child named by
its cased name, with one argument spec per named field (modelled from the
spec: `args::gen_augment` is the field-level collaborator) and no flags. -/
def augmentVariant : Variant → Bool → Cmd → Cmd
  | .skip _ _, _, app => app
  | .extSub, _, app => { app with acceptsExternal := true }
  | .flatten u, mode, app => augment u mode app
  | .subcmd n u, mode, app =>
    { app with children := app.children ++
        [{ augment u mode (Cmd.new n) with subRequired := true, argRequiredElseHelp := true }] }
  | .command n s, _, app =>
    { app with children := app.children ++
        [match s with
         | .unit => Cmd.new n
         | .named fs => { Cmd.new n with args := fs }] }
end

/-- The child node `gen_augment` builds for a `Kind::Subcommand` variant:
the nested union's schema under the variant's cased name, with
`subcommand_required` and `arg_required_else_help` set. -/
def subCommandChild (mode : Bool) (n : String) (u : Variants) : Cmd :=
  { augment u mode (Cmd.new n) with subRequired := true, argRequiredElseHelp := true }

/-- The child node `gen_augment` builds for a default-kind variant: a fresh
node named by the cased name, with one argument spec per named field and no
flags set. -/
def commandChild (n : String) (s : Shape) : Cmd :=
  match s with
  | .unit => Cmd.new n
  | .named fs => { Cmd.new n with args := fs }

/-- The duplicate catch-all scan of `gen_from_arg_matches`: walking the
variants in declaration order with a seen-one-already flag, generation
aborts at the second `external_subcommand` variant. -/
def checkCatchAll : Variants → Nat → Bool → Except GenError Unit
  | .nil, _, _ => .ok ()
  | .cons .extSub t, i, seen =>
    if seen then .error (.duplicateCatchAll i) else checkCatchAll t (i + 1) true
  | .cons _ t, i, seen => checkCatchAll t (i + 1) seen

/-- `gen_for_enum`: generation first runs `gen_from_arg_matches`, whose
variant scan aborts on a duplicate catch-all, and only then builds the
schema; on an abort no schema is produced. -/
def generate (vs : Variants) (mode : Bool) (app : Cmd) : Except GenError Cmd :=
  Except.map (fun _ => augment vs mode app) (checkCatchAll vs 0 false)

/-- Declaration indices of the `external_subcommand` variants, counting from
`i`. -/
def extIndicesFrom : Variants → Nat → List Nat
  | .nil, _ => []
  | .cons .extSub t, i => i :: extIndicesFrom t (i + 1)
  | .cons _ t, i => extIndicesFrom t (i + 1)

/-- Declaration indices of the `external_subcommand` variants. -/
def extIndices (vs : Variants) : List Nat :=
  extIndicesFrom vs 0

/-- A variant occurs somewhere in a variant list (declaration-order-free
membership, used by the spec-side statement of the membership oracle). -/
inductive OccursIn : Variant → Variants → Prop where
  | head (v : Variant) (t : Variants) : OccursIn v (.cons v t)
  | tail (v w : Variant) (t : Variants) : OccursIn v t → OccursIn v (.cons w t)

/-- The cased name of a plain variant in the claim's sense: non-flatten,
non-catch-all and non-skip. -/
def plainName : Variant → Option String
  | .command n _ => some n
  | .subcmd n _ => some n
  | _ => none

/-- Membership as the claim words it: the name equals some plain
(non-flatten, non-catch-all, non-skip) variant's cased name, or a catch-all
exists, or some flattened variant's own set recognizes the name.  Stated
over `OccursIn`, so declaration order cannot matter. -/
inductive MemberSpec : Variants → String → Prop where
  | plain (v : Variant) (vs : Variants) (name : String) :
      OccursIn v vs → plainName v = some name → MemberSpec vs name
  | catchAll (vs : Variants) (name : String) :
      OccursIn .extSub vs → MemberSpec vs name
  | flat (u : Variants) (vs : Variants) (name : String) :
      OccursIn (.flatten u) vs → MemberSpec u name → MemberSpec vs name

/-- Membership as the code realizes it: like `MemberSpec`, but every
name-bearing variant counts, skipped variants included. -/
inductive Member : Variants → String → Prop where
  | plain (v : Variant) (vs : Variants) (name : String) :
      OccursIn v vs → namedName v = some name → Member vs name
  | catchAll (vs : Variants) (name : String) :
      OccursIn .extSub vs → Member vs name
  | flat (u : Variants) (vs : Variants) (name : String) :
      OccursIn (.flatten u) vs → Member u name → Member vs name

/-- The first flattened variant (original declaration index and nested
union) whose membership test recognizes the name, scanning from index
`i`. -/
def flatFirst : Variants → Nat → String → Option (Nat × Variants)
  | .nil, _, _ => none
  | .cons (.flatten u) t, i, name =>
    if has u name then some (i, u) else flatFirst t (i + 1) name
  | .cons _ t, i, name => flatFirst t (i + 1) name

/-- The payload description of a plain decode arm. -/
inductive Arm : Type where
  | ofShape : Shape → Arm
  | nested : Variants → Arm

/-- The first name-bearing variant (original declaration index and arm
payload) whose cased name equals the name, scanning from index `i`. -/
def armFirst : Variants → Nat → String → Option (Nat × Arm)
  | .nil, _, _ => none
  | .cons (.command n s) t, i, name =>
    if n == name then some (i, .ofShape s) else armFirst t (i + 1) name
  | .cons (.skip n s) t, i, name =>
    if n == name then some (i, .ofShape s) else armFirst t (i + 1) name
  | .cons (.subcmd n u) t, i, name =>
    if n == name then some (i, .nested u) else armFirst t (i + 1) name
  | .cons (.flatten _) t, i, name => armFirst t (i + 1) name
  | .cons .extSub t, i, name => armFirst t (i + 1) name

/-- The variant at declaration index `i`. -/
def variantAt : Variants → Nat → Option Variant
  | .nil, _ => none
  | .cons v _, 0 => some v
  | .cons _ t, n + 1 => variantAt t n

/-- The cased name of the variant at declaration index `i`, when that
variant bears one. -/
def casedAt (vs : Variants) (i : Nat) : Option String :=
  (variantAt vs i).bind namedName

/-- What a fired plain arm of the decoder produces: a `command`/`skip` arm
constructs its shape, a `subcmd` arm decodes the nested union from the
nested matches. -/
def armDecode (i : Nat) (a : Arm) (sub : ArgMatches) : Except CError Value :=
  match a with
  | .ofShape s => constructShape i s sub
  | .nested u => Except.map (Value.tagged i) (decode u sub)

theorem hasFlattens_cons_flatten (u : Variants) (t : Variants) (name : String) :
    hasFlattens (.cons (.flatten u) t) name = (has u name || hasFlattens t name) := rfl

theorem decodeFlat_cons_flatten (u t : Variants) (i : Nat) (name : String) (m : ArgMatches) :
    decodeFlat (.cons (.flatten u) t) i name m
      = if has u name then some (Except.map (Value.tagged i) (decode u m))
        else decodeFlat t (i + 1) name m := rfl

theorem decodeArm_cons_subcmd (n : String) (u t : Variants) (i : Nat) (name : String)
    (sub : ArgMatches) :
    decodeArm (.cons (.subcmd n u) t) i name sub
      = if n == name then some (Except.map (Value.tagged i) (decode u sub))
        else decodeArm t (i + 1) name sub := rfl

theorem updateArm_cons_subcmd (n : String) (u t : Variants) (i vi : Nat) (p : Value)
    (name : String) (sub : ArgMatches) :
    updateArm (.cons (.subcmd n u) t) i (.tagged vi p) name sub
      = if vi == i && n == name then
          some ((fun r => (Value.tagged i r.1, r.2)) (update u p sub))
        else updateArm t (i + 1) (.tagged vi p) name sub := rfl

theorem updateFlat_cons_flatten (u t : Variants) (i vi : Nat) (c : Value)
    (name : String) (m : ArgMatches) :
    updateFlat (.cons (.flatten u) t) i (.tagged vi c) name m
      = if has u name then
          (if vi == i then
            some ((fun r => (Value.tagged i r.1, r.2)) (update u c m))
          else updateFlat t (i + 1) (.tagged vi c) name m)
        else updateFlat t (i + 1) (.tagged vi c) name m := rfl

/-- The flatten phase of the decoder realizes exactly the first flattened
variant recognizing the chosen name: it succeeds precisely when `flatFirst`
finds one, and then decodes that variant's nested union at the same match
level, wrapped in its constructor. -/
theorem decodeFlat_eq (m : ArgMatches) (name : String) :
    ∀ (vs : Variants) (i : Nat),
      decodeFlat vs i name m
        = Option.map (fun ju => Except.map (Value.tagged ju.1) (decode ju.2 m))
            (flatFirst vs i name)
  | .nil, _ => rfl
  | .cons (.flatten u) t, i => by
    rw [decodeFlat_cons_flatten]
    by_cases h : has u name
    · simp [flatFirst, h]
    · simp [flatFirst, h, decodeFlat_eq m name t (i + 1)]
  | .cons (.command n s) t, i => decodeFlat_eq m name t (i + 1)
  | .cons (.subcmd n u) t, i => decodeFlat_eq m name t (i + 1)
  | .cons .extSub t, i => decodeFlat_eq m name t (i + 1)
  | .cons (.skip n s) t, i => decodeFlat_eq m name t (i + 1)

/-- The plain-arm phase of the decoder realizes exactly the first
name-bearing variant whose cased name equals the chosen name. -/
theorem decodeArm_eq (sub : ArgMatches) (name : String) :
    ∀ (vs : Variants) (i : Nat),
      decodeArm vs i name sub
        = Option.map (fun ia => armDecode ia.1 ia.2 sub) (armFirst vs i name)
  | .nil, _ => rfl
  | .cons (.command n s) t, i => by
    by_cases h : n == name
    · simp [decodeArm, armFirst, h, armDecode]
    · simp [decodeArm, armFirst, h, decodeArm_eq sub name t (i + 1)]
  | .cons (.skip n s) t, i => by
    by_cases h : n == name
    · simp [decodeArm, armFirst, h, armDecode]
    · simp [decodeArm, armFirst, h, decodeArm_eq sub name t (i + 1)]
  | .cons (.subcmd n u) t, i => by
    rw [decodeArm_cons_subcmd]
    by_cases h : n == name
    · simp [armFirst, h, armDecode]
    · simp [armFirst, h, decodeArm_eq sub name t (i + 1)]
  | .cons (.flatten u) t, i => decodeArm_eq sub name t (i + 1)
  | .cons .extSub t, i => decodeArm_eq sub name t (i + 1)

/-- Unfolding of the decoder when a subcommand was chosen. -/
theorem decode_some (vs : Variants) (m : ArgMatches) (name : String) (sub : ArgMatches)
    (h : m.sub = some (name, sub)) :
    decode vs m
      = match decodeFlat vs 0 name m with
        | some r => r
        | none =>
          if sub.leftover.isEmpty then
            match decodeArm vs 0 name sub with
            | some r => r
            | none => wildcard vs name sub
          else wildcard vs name sub := by
  unfold decode
  rw [h]

/-- C2: when the chosen child name is recognized by some flattened
variant's membership oracle, `decode` wraps the result of recursively
decoding the flattened type at the same match-result level in that flatten
variant's constructor, before any plain variant's cased name is compared —
whatever the relative declaration order with plain variants. -/
theorem claim_C2 (vs : Variants) (m : ArgMatches) (name : String) (sub : ArgMatches)
    (j : Nat) (u : Variants)
    (hs : m.sub = some (name, sub)) (hf : flatFirst vs 0 name = some (j, u)) :
    decode vs m = Except.map (Value.tagged j) (decode u m) := by
  rw [decode_some vs m name sub hs, decodeFlat_eq m name vs 0, hf]
  rfl

/-- Witness for C2 at a concrete input: the plain variant declared first has
the same cased name `"x"` as the flattened child, yet the flatten variant's
constructor (index 1) wins. -/
theorem claim_C2_witness :
    decode
        (.cons (.command "x" .unit)
          (.cons (.flatten (.cons (.command "x" .unit) .nil)) .nil))
        (.mk (some ("x", .mk none [] [])) [] [])
      = Except.map (Value.tagged 1)
          (decode (.cons (.command "x" .unit) .nil)
            (.mk (some ("x", .mk none [] [])) [] [])) :=
  claim_C2 _ _ "x" (.mk none [] []) 1 _ rfl rfl

/-- Counterexample to C4 as stated: under the claims' notion of plain
variant (non-flatten, non-catch-all, non-skip), a chosen name equal only to
a skip variant's cased name satisfies the claim's hypotheses — a catch-all
exists, no flattened variant recognizes `"s"`, no plain variant's cased
name equals `"s"` — yet the decoder fires the skip variant's name-compared
arm and returns the skip construct, not the catch-all built from `["s"]`. -/
theorem claim_C4_counterexample :
    decode (.cons (.skip "s" .unit) (.cons .extSub .nil))
        (.mk (some ("s", .mk none [] [])) [] [])
      = .ok (.tagged 0 .unitV)
    ∧ (∀ v, OccursIn v (.cons (.skip "s" .unit) (.cons .extSub .nil)) →
        plainName v ≠ some "s")
    ∧ OccursIn .extSub (.cons (.skip "s" .unit) (.cons .extSub .nil))
    ∧ decode (.cons (.skip "s" .unit) (.cons .extSub .nil))
        (.mk (some ("s", .mk none [] [])) [] [])
      ≠ .ok (.tagged 1 (.tokens ["s"])) := by
  refine ⟨by decide, ?_, .tail _ _ _ (.head _ _), by decide⟩
  intro v h
  cases h with
  | head _ => decide
  | tail _ _ h2 =>
    cases h2 with
    | head _ => decide
    | tail _ _ h3 => cases h3

/-- C4 amended: when a catch-all exists and the chosen name is recognized
by no flattened variant and equals no name-bearing variant's cased name —
skip variants included, since their name-compared arms survive in the
generated decoder — `decode` succeeds with the catch-all variant built from
the chosen name followed by every token of the nested leftover bucket, in
order. -/
theorem claim_C4 (vs : Variants) (m : ArgMatches) (name : String) (sub : ArgMatches)
    (k : Nat)
    (hs : m.sub = some (name, sub))
    (hflat : flatFirst vs 0 name = none)
    (harm : armFirst vs 0 name = none)
    (hext : findExt vs 0 = some k) :
    decode vs m = .ok (.tagged k (.tokens (name :: sub.leftover))) := by
  rw [decode_some vs m name sub hs, decodeFlat_eq m name vs 0, hflat]
  by_cases hl : sub.leftover.isEmpty
  · simp only [Option.map_none', hl, if_true]
    rw [decodeArm_eq sub name vs 0, harm]
    simp [wildcard, hext]
  · simp [hl, wildcard, hext]

/-- Witness for C4 at a concrete input: `"z"` matches nothing, the
catch-all at index 1 absorbs it together with the leftover tokens. -/
theorem claim_C4_witness :
    decode (.cons (.command "a" .unit) (.cons .extSub .nil))
        (.mk (some ("z", .mk none ["t1", "t2"] [])) [] [])
      = .ok (.tagged 1 (.tokens ["z", "t1", "t2"])) :=
  claim_C4 _ _ "z" (.mk none ["t1", "t2"] []) 1 rfl rfl rfl rfl

/-- C9: a plain arm fires only when the nested matches carry no entry under
the empty-string id; with leftover tokens present (and no flattened variant
recognizing the name) the decoder goes to the wildcard — the catch-all when
one exists, the unrecognized-subcommand error otherwise — even when the
chosen name equals some plain variant's cased name. -/
theorem claim_C9 (vs : Variants) (m : ArgMatches) (name : String) (sub : ArgMatches)
    (hs : m.sub = some (name, sub))
    (hl : sub.leftover.isEmpty = false)
    (hflat : flatFirst vs 0 name = none) :
    decode vs m
      = match findExt vs 0 with
        | some k => .ok (.tagged k (.tokens (name :: sub.leftover)))
        | none => .error (.unrecognizedSubcommand name) := by
  rw [decode_some vs m name sub hs, decodeFlat_eq m name vs 0, hflat]
  simp [hl, wildcard]

/-- Witness for C9 at a concrete input: `"a"` equals the plain variant's
cased name, but the leftover token `"x"` sends the decode to the catch-all
instead of the plain arm. -/
theorem claim_C9_witness :
    decode (.cons (.command "a" .unit) (.cons .extSub .nil))
        (.mk (some ("a", .mk none ["x"] [])) [] [])
      = .ok (.tagged 1 (.tokens ["a", "x"]))
    ∧ armFirst (.cons (.command "a" .unit) (.cons .extSub .nil)) 0 "a"
        = some (0, .ofShape .unit) :=
  ⟨claim_C9 _ _ "a" (.mk none ["x"] []) rfl rfl rfl, rfl⟩

/-- Counterexample to C5 as stated, refuting both halves at concrete
inputs: first, with a chosen child name present the decoder can still
return the missing-subcommand error, propagated from recursively decoding
the nested union of a matched plain variant whose own match level carries
no chosen name — so the claimed equivalence fails right to left; second,
a chosen name equal only to a skip variant's cased name — recognized by no
flattened variant, equal to no plain (non-skip) variant's cased name, with
no catch-all present — makes the decoder construct the skip variant
instead of returning the unrecognized-subcommand error the claim
requires. -/
theorem claim_C5_counterexample :
    (decode (.cons (.subcmd "a" (.cons (.command "b" .unit) .nil)) .nil)
        (.mk (some ("a", .mk none [] [])) [] [])
      = .error .missingSubcommand
    ∧ (ArgMatches.mk (some ("a", ArgMatches.mk none [] [])) [] []).sub.isSome = true)
    ∧ (decode (.cons (.skip "t" .unit) .nil)
        (.mk (some ("t", .mk none [] [])) [] [])
      = .ok (.tagged 0 .unitV)
    ∧ (∀ v, OccursIn v (.cons (.skip "t" .unit) .nil) → plainName v ≠ some "t")
    ∧ findExt (.cons (.skip "t" .unit) .nil) 0 = none) := by
  refine ⟨⟨by decide, rfl⟩, by decide, ?_, rfl⟩
  intro v h
  cases h with
  | head _ => decide
  | tail _ _ h2 => cases h2

/-- C5 amended: `decode` returns the missing-subcommand error whenever the
match result carries no chosen child name (with a chosen name present it
can also arise, propagated from a recursive decode of a nested payload);
and when a chosen name is present but is recognized by no flattened
variant, equals no name-bearing variant's cased name, and no catch-all
exists, `decode` returns the unrecognized-subcommand error carrying that
name. -/
theorem claim_C5_amended (vs : Variants) (m : ArgMatches) :
    (m.sub = none → decode vs m = .error .missingSubcommand)
    ∧ (∀ (name : String) (sub : ArgMatches), m.sub = some (name, sub) →
        flatFirst vs 0 name = none → armFirst vs 0 name = none →
        findExt vs 0 = none →
        decode vs m = .error (.unrecognizedSubcommand name)) := by
  constructor
  · intro h
    unfold decode
    rw [h]
  · intro name sub hs hflat harm hext
    rw [decode_some vs m name sub hs, decodeFlat_eq m name vs 0, hflat]
    by_cases hl : sub.leftover.isEmpty
    · simp only [Option.map_none', hl, if_true]
      rw [decodeArm_eq sub name vs 0, harm]
      simp [wildcard, hext]
    · simp [hl, wildcard, hext]

/-- Witness for the amended C5 at concrete inputs: both conjuncts applied,
the no-chosen-name case and the unrecognized-name case. -/
theorem claim_C5_amended_witness :
    decode (.cons (.command "a" .unit) .nil) (.mk none [] [])
      = .error .missingSubcommand
    ∧ decode (.cons (.command "a" .unit) .nil)
        (.mk (some ("z", .mk none [] [])) [] [])
      = .error (.unrecognizedSubcommand "z") :=
  ⟨(claim_C5_amended (.cons (.command "a" .unit) .nil) (.mk none [] [])).1 rfl,
   (claim_C5_amended (.cons (.command "a" .unit) .nil)
      (.mk (some ("z", .mk none [] [])) [] [])).2 "z" (.mk none [] []) rfl rfl rfl rfl⟩

/-- C6: a match result with no chosen child name makes the updater a no-op
success, leaving the existing value untouched, whatever its variant. -/
theorem claim_C6 (vs : Variants) (val : Value) (m : ArgMatches) (h : m.sub = none) :
    update vs val m = (val, none) := by
  unfold update
  rw [h]

/-- Witness for C6 at a concrete input. -/
theorem claim_C6_witness :
    update (.cons (.command "a" (.named ["f"])) .nil)
        (.tagged 0 (.record [("f", "1")])) (.mk none ["tok"] [("g", "2")])
      = (.tagged 0 (.record [("f", "1")]), none) :=
  claim_C6 _ _ _ rfl

theorem occurs_sizeOf {v : Variant} {vs : Variants} (h : OccursIn v vs) :
    sizeOf v < sizeOf vs := by
  induction h with
  | head t => simp only [Variants.cons.sizeOf_spec]; omega
  | tail w t h ih => simp only [Variants.cons.sizeOf_spec]; omega

theorem containsExt_occurs : ∀ (vs : Variants), containsExt vs = true → OccursIn .extSub vs
  | .cons .extSub t, _ => .head _ _
  | .cons (.command n s) t, h => .tail _ _ _ (containsExt_occurs t h)
  | .cons (.subcmd n u) t, h => .tail _ _ _ (containsExt_occurs t h)
  | .cons (.flatten u) t, h => .tail _ _ _ (containsExt_occurs t h)
  | .cons (.skip n s) t, h => .tail _ _ _ (containsExt_occurs t h)
  | .nil, h => by simp [containsExt] at h

theorem hasPlains_exists : ∀ (vs : Variants) (name : String), hasPlains vs name = true →
    ∃ v, OccursIn v vs ∧ namedName v = some name
  | .nil, name, h => by simp [hasPlains] at h
  | .cons v t, name, h => by
    unfold hasPlains at h
    cases hv : namedName v with
    | some n =>
      rw [hv] at h
      simp only [Bool.or_eq_true] at h
      cases h with
      | inl h1 =>
        exact ⟨v, .head v t, by rw [hv, eq_of_beq h1]⟩
      | inr h2 =>
        obtain ⟨w, hw, hn⟩ := hasPlains_exists t name h2
        exact ⟨w, .tail _ _ _ hw, hn⟩
    | none =>
      rw [hv] at h
      obtain ⟨w, hw, hn⟩ := hasPlains_exists t name h
      exact ⟨w, .tail _ _ _ hw, hn⟩

theorem hasFlattens_exists : ∀ (vs : Variants) (name : String), hasFlattens vs name = true →
    ∃ u, OccursIn (.flatten u) vs ∧ has u name = true
  | .nil, name, h => by simp [hasFlattens] at h
  | .cons (.flatten u) t, name, h => by
    rw [hasFlattens_cons_flatten] at h
    simp only [Bool.or_eq_true] at h
    cases h with
    | inl h1 => exact ⟨u, .head _ _, h1⟩
    | inr h2 =>
      obtain ⟨w, hw, hn⟩ := hasFlattens_exists t name h2
      exact ⟨w, .tail _ _ _ hw, hn⟩
  | .cons (.command n s) t, name, h => by
    obtain ⟨w, hw, hn⟩ := hasFlattens_exists t name h
    exact ⟨w, .tail _ _ _ hw, hn⟩
  | .cons (.subcmd n u) t, name, h => by
    obtain ⟨w, hw, hn⟩ := hasFlattens_exists t name h
    exact ⟨w, .tail _ _ _ hw, hn⟩
  | .cons .extSub t, name, h => by
    obtain ⟨w, hw, hn⟩ := hasFlattens_exists t name h
    exact ⟨w, .tail _ _ _ hw, hn⟩
  | .cons (.skip n s) t, name, h => by
    obtain ⟨w, hw, hn⟩ := hasFlattens_exists t name h
    exact ⟨w, .tail _ _ _ hw, hn⟩

theorem has_member (vs : Variants) (name : String) (h : has vs name = true) :
    Member vs name := by
  unfold has at h
  by_cases hext : containsExt vs = true
  · exact .catchAll vs name (containsExt_occurs vs hext)
  · rw [if_neg hext] at h
    simp only [Bool.or_eq_true] at h
    cases h with
    | inl h1 =>
      obtain ⟨v, hv, hn⟩ := hasPlains_exists vs name h1
      exact .plain v vs name hv hn
    | inr h2 =>
      obtain ⟨u, hu, hn⟩ := hasFlattens_exists vs name h2
      exact .flat u vs name hu (has_member u name hn)
termination_by sizeOf vs
decreasing_by
  have h1 := occurs_sizeOf hu
  simp only [Variant.flatten.sizeOf_spec] at h1
  omega

theorem occurs_named_hasPlains {v : Variant} {vs : Variants} {name : String}
    (hocc : OccursIn v vs) (hn : namedName v = some name) : hasPlains vs name = true := by
  induction hocc with
  | head t => simp [hasPlains, hn]
  | tail w t h ih => cases hw : namedName w <;> simp [hasPlains, hw, ih]

theorem occurs_ext_containsExt {vs : Variants} (hocc : OccursIn .extSub vs) :
    containsExt vs = true := by
  generalize hv : Variant.extSub = v at hocc
  induction hocc with
  | head t => rw [← hv]; rfl
  | tail w t h ih => cases w <;> simp [containsExt, ih]

theorem occurs_flatten_hasFlattens {name : String} {v : Variant} {vs : Variants}
    (hocc : OccursIn v vs) :
    ∀ {u : Variants}, v = .flatten u → has u name = true → hasFlattens vs name = true := by
  induction hocc with
  | head t =>
    intro u hv hu
    subst hv
    rw [hasFlattens_cons_flatten]
    simp [hu]
  | tail w t h ih =>
    intro u hv hu
    cases w with
    | flatten w1 =>
      rw [hasFlattens_cons_flatten]
      simp [ih hv hu]
    | command n s => exact ih hv hu
    | subcmd n u1 => exact ih hv hu
    | extSub => exact ih hv hu
    | skip n s => exact ih hv hu

theorem member_has {vs : Variants} {name : String} (h : Member vs name) :
    has vs name = true := by
  induction h with
  | plain v vs name hocc hn =>
    unfold has
    by_cases hc : containsExt vs = true <;>
      simp [hc, occurs_named_hasPlains hocc hn]
  | catchAll vs name hocc =>
    unfold has
    simp [occurs_ext_containsExt hocc]
  | flat u vs name hocc hm ih =>
    unfold has
    by_cases hc : containsExt vs = true <;>
      simp [hc, occurs_flatten_hasFlattens hocc rfl ih]

/-- Counterexample to C1 as stated: the generated oracle does not exclude
skipped variants — a skip variant's cased name is recognized, although the
claim's plain/catch-all/flatten characterization rejects it. -/
theorem claim_C1_counterexample :
    has (.cons (.skip "s" .unit) .nil) "s" = true
    ∧ ¬ MemberSpec (.cons (.skip "s" .unit) .nil) "s" := by
  refine ⟨by decide, ?_⟩
  intro h
  cases h with
  | plain v vs name hocc hn =>
    cases hocc with
    | head _ => simp [plainName] at hn
    | tail _ _ h2 => cases h2
  | catchAll vs name hocc =>
    cases hocc with
    | tail _ _ h2 => cases h2
  | flat u vs name hocc hm =>
    cases hocc with
    | tail _ _ h2 => cases h2

/-- C1 amended: the membership oracle returns true exactly when the name
equals the cased name of some name-bearing variant — skipped variants
included, since the generator filters `Kind::Skip` only when building the
schema — or a catch-all variant exists, or some flattened variant's own
oracle recognizes the name; the right-hand side quantifies over occurrence
only, so declaration order never changes the returned boolean. -/
theorem claim_C1_amended (vs : Variants) (name : String) :
    has vs name = true ↔ Member vs name :=
  ⟨has_member vs name, member_has⟩

/-- Counterexample to C3 as stated: the child schema node built for a plain
variant with Unit payload (default kind) has neither `subcommand_required`
nor `arg_required_else_help` set — the generator sets those two flags only
in its `Kind::Subcommand` arm. -/
theorem claim_C3_counterexample :
    ((augment (.cons (.command "a" .unit) .nil) false (Cmd.new "root")).children.map
        (fun c => c.subRequired || c.argRequiredElseHelp)) = [false] := rfl

/-- C3 amended: only for a plain variant of nested-subcommand kind (single
unnamed payload delegated to a nested union's schema builder) does the
child schema node get `subcommand_required = true` and
`arg_required_else_help = true`, and it does so in both fresh and update
mode; the child built for a default-kind variant — Unit payload or named
fields alike — leaves both flags unset, again in both modes. -/
theorem claim_C3_amended (mode : Bool) (n : String) (u : Variants) (s : Shape) (app : Cmd) :
    (augmentVariant (.subcmd n u) mode app
        = { app with children := app.children ++ [subCommandChild mode n u] }
      ∧ (subCommandChild mode n u).subRequired = true
      ∧ (subCommandChild mode n u).argRequiredElseHelp = true)
    ∧ (augmentVariant (.command n s) mode app
        = { app with children := app.children ++ [commandChild n s] }
      ∧ (commandChild n s).subRequired = false
      ∧ (commandChild n s).argRequiredElseHelp = false) := by
  refine ⟨⟨rfl, rfl, rfl⟩, ?_, ?_, ?_⟩
  · cases s <;> rfl
  · cases s <;> rfl
  · cases s <;> rfl

theorem updateArm_none (name : String) (sub : ArgMatches) (i : Nat) (p : Value) :
    ∀ (vs : Variants) (k : Nat), (∀ j, i = k + j → casedAt vs j ≠ some name) →
      updateArm vs k (.tagged i p) name sub = none
  | .nil, _, _ => rfl
  | .cons (.command n s) t, k, h => by
    have hg : (i == k && n == name) = false := by
      rcases eq_or_ne i k with hik | hik
      · subst hik
        have h0 : ¬(some n = some name) := h 0 rfl
        have hnn : n ≠ name := fun hh => h0 (by rw [hh])
        simp [hnn]
      · simp [hik]
    simp only [updateArm, hg, Bool.false_eq_true, if_false]
    exact updateArm_none name sub i p t (k + 1) (fun j hj => h (j + 1) (by omega))
  | .cons (.skip n s) t, k, h => by
    have hg : (i == k && n == name) = false := by
      rcases eq_or_ne i k with hik | hik
      · subst hik
        have h0 : ¬(some n = some name) := h 0 rfl
        have hnn : n ≠ name := fun hh => h0 (by rw [hh])
        simp [hnn]
      · simp [hik]
    simp only [updateArm, hg, Bool.false_eq_true, if_false]
    exact updateArm_none name sub i p t (k + 1) (fun j hj => h (j + 1) (by omega))
  | .cons (.subcmd n u) t, k, h => by
    have hg : (i == k && n == name) = false := by
      rcases eq_or_ne i k with hik | hik
      · subst hik
        have h0 : ¬(some n = some name) := h 0 rfl
        have hnn : n ≠ name := fun hh => h0 (by rw [hh])
        simp [hnn]
      · simp [hik]
    rw [updateArm_cons_subcmd, hg]
    simp only [Bool.false_eq_true, if_false]
    exact updateArm_none name sub i p t (k + 1) (fun j hj => h (j + 1) (by omega))
  | .cons (.flatten u) t, k, h =>
    updateArm_none name sub i p t (k + 1) (fun j hj => h (j + 1) (by omega))
  | .cons .extSub t, k, h =>
    updateArm_none name sub i p t (k + 1) (fun j hj => h (j + 1) (by omega))

theorem updateFlat_none (name : String) (m : ArgMatches) (i : Nat) (c : Value) :
    ∀ (vs : Variants) (k : Nat),
      (∀ j u, i = k + j → variantAt vs j = some (.flatten u) → has u name = false) →
      updateFlat vs k (.tagged i c) name m = none
  | .nil, _, _ => rfl
  | .cons (.flatten u) t, k, h => by
    rw [updateFlat_cons_flatten]
    have hshift : ∀ j u2, i = (k + 1) + j → variantAt t j = some (.flatten u2) →
        has u2 name = false :=
      fun j u2 hj hv => h (j + 1) u2 (by omega) hv
    by_cases hu : has u name
    · rw [if_pos hu]
      have hik : (i == k) = false := by
        rcases eq_or_ne i k with hik | hik
        · exact absurd hu (by simpa using h 0 u hik rfl)
        · simp [hik]
      rw [if_neg (by simp [hik])]
      exact updateFlat_none name m i c t (k + 1) hshift
    · rw [if_neg hu]
      exact updateFlat_none name m i c t (k + 1) hshift
  | .cons (.command n s) t, k, h =>
    updateFlat_none name m i c t (k + 1) (fun j u2 hj hv => h (j + 1) u2 (by omega) hv)
  | .cons (.skip n s) t, k, h =>
    updateFlat_none name m i c t (k + 1) (fun j u2 hj hv => h (j + 1) u2 (by omega) hv)
  | .cons (.subcmd n u) t, k, h =>
    updateFlat_none name m i c t (k + 1) (fun j u2 hj hv => h (j + 1) u2 (by omega) hv)
  | .cons .extSub t, k, h =>
    updateFlat_none name m i c t (k + 1) (fun j u2 hj hv => h (j + 1) u2 (by omega) hv)

/-- When the chosen name is present and fires neither a plain arm for the
existing value's active variant nor a flatten delegation, the updater falls
back to a fresh decode: the decoded value replaces the existing one
wholesale on success, and on a decode error the existing value is kept and
the error returned. -/
theorem update_fallback (vs : Variants) (i : Nat) (p : Value) (m : ArgMatches)
    (name : String) (sub : ArgMatches)
    (hs : m.sub = some (name, sub))
    (h2 : casedAt vs i ≠ some name)
    (h3 : ∀ u, variantAt vs i = some (.flatten u) → has u name = false) :
    update vs (.tagged i p) m
      = (match decode vs m with
         | .ok v => (v, none)
         | .error e => (.tagged i p, some e)) := by
  unfold update
  rw [hs]
  dsimp only
  rw [updateArm_none name sub i p vs 0
    (fun j hj => by
      have hj2 : j = i := by omega
      rw [hj2]; exact h2)]
  rw [updateFlat_none name m i p vs 0
    (fun j u hj hv => by
      have hj2 : j = i := by omega
      rw [hj2] at hv
      exact h3 u hv)]

/-- C7: when the existing value's active variant neither matches the chosen
name nor, for an active flatten variant, recognizes it through its own
membership oracle, a successful update produces exactly the value a fresh
`decode` of the same match result yields, independent of the prior
value. -/
theorem claim_C7 (vs : Variants) (i : Nat) (p : Value) (m : ArgMatches)
    (name : String) (sub : ArgMatches) (v : Value)
    (hs : m.sub = some (name, sub))
    (h2 : casedAt vs i ≠ some name)
    (h3 : ∀ u, variantAt vs i = some (.flatten u) → has u name = false)
    (hd : decode vs m = .ok v) :
    update vs (.tagged i p) m = (v, none) := by
  rw [update_fallback vs i p m name sub hs h2 h3, hd]

/-- Witness for C7 at a concrete input: the active variant `"a"` changes to
`"b"`, and the update result equals the fresh decode, regardless of the
prior payload. -/
theorem claim_C7_witness :
    update (.cons (.command "a" .unit) (.cons (.command "b" .unit) .nil))
        (.tagged 0 .unitV) (.mk (some ("b", .mk none [] [])) [] [])
      = (.tagged 1 .unitV, none) :=
  claim_C7 _ 0 _ _ "b" (.mk none [] []) _ rfl (by decide)
    (fun u hv => by simp [variantAt] at hv) (by decide)

/-- C10: when the updater falls back to decode-and-replace and the decode
fails, the error is propagated and the existing value is left unchanged —
the replacement happens only on decode success. -/
theorem claim_C10 (vs : Variants) (i : Nat) (p : Value) (m : ArgMatches)
    (name : String) (sub : ArgMatches) (e : CError)
    (hs : m.sub = some (name, sub))
    (h2 : casedAt vs i ≠ some name)
    (h3 : ∀ u, variantAt vs i = some (.flatten u) → has u name = false)
    (hd : decode vs m = .error e) :
    update vs (.tagged i p) m = (.tagged i p, some e) := by
  rw [update_fallback vs i p m name sub hs h2 h3, hd]

/-- Witness for C10 at a concrete input: decoding the chosen variant `"b"`
fails, with the missing-subcommand error propagated from its nested union;
the updater returns that error and the existing value survives untouched. -/
theorem claim_C10_witness :
    update
        (.cons (.command "a" .unit)
          (.cons (.subcmd "b" (.cons (.command "c" .unit) .nil)) .nil))
        (.tagged 0 .unitV) (.mk (some ("b", .mk none [] [])) [] [])
      = (.tagged 0 .unitV, some .missingSubcommand) :=
  claim_C10 _ 0 _ _ "b" (.mk none [] []) _ rfl (by decide)
    (fun u hv => by simp [variantAt] at hv) (by decide)

theorem checkCatchAll_spec : ∀ (vs : Variants) (i : Nat),
    (checkCatchAll vs i false
        = match extIndicesFrom vs i with
          | _ :: j :: _ => Except.error (.duplicateCatchAll j)
          | _ => Except.ok ())
    ∧ (checkCatchAll vs i true
        = match extIndicesFrom vs i with
          | j :: _ => Except.error (.duplicateCatchAll j)
          | [] => Except.ok ())
  | .nil, i => ⟨rfl, rfl⟩
  | .cons .extSub t, i => by
    refine ⟨?_, rfl⟩
    show checkCatchAll t (i + 1) true = _
    rw [(checkCatchAll_spec t (i + 1)).2]
    have he : extIndicesFrom (.cons .extSub t) i = i :: extIndicesFrom t (i + 1) := rfl
    rw [he]
    cases extIndicesFrom t (i + 1) with
    | nil => rfl
    | cons a l => rfl
  | .cons (.command n s) t, i => checkCatchAll_spec t (i + 1)
  | .cons (.subcmd n u) t, i => checkCatchAll_spec t (i + 1)
  | .cons (.flatten u) t, i => checkCatchAll_spec t (i + 1)
  | .cons (.skip n s) t, i => checkCatchAll_spec t (i + 1)

/-- C8: a variant list carrying two or more `external_subcommand` variants
makes generation abort with the duplicate-catch-all error, diagnosed at the
second such variant's declaration index, and no schema is produced. -/
theorem claim_C8 (vs : Variants) (mode : Bool) (app : Cmd) (i0 i1 : Nat) (rest : List Nat)
    (h : extIndices vs = i0 :: i1 :: rest) :
    generate vs mode app = .error (.duplicateCatchAll i1) := by
  unfold generate
  rw [(checkCatchAll_spec vs 0).1]
  unfold extIndices at h
  rw [h]
  rfl

/-- Witness for C8 at a concrete input: catch-alls at indices 0 and 2,
generation aborts diagnosing index 2. -/
theorem claim_C8_witness :
    generate (.cons .extSub (.cons (.command "a" .unit) (.cons .extSub .nil))) false
        (Cmd.new "r")
      = .error (.duplicateCatchAll 2) :=
  claim_C8 _ false _ 0 2 [] rfl

end ClapSub
